import Mathlib

/-
Verification of the `.debug_line` aggregation example (`simple_line.rs`).

The example decodes DWARF line-number programs through the gimli library
interface and folds the resulting rows into a nested map
path -> line -> LineInfo, then reports every (path, line) whose total
instruction count exceeds 1.

The gimli library itself is not part of the sources here; only the example
binary is.  Library calls used by the example (`rows.next_row()`,
`row.file(header)`, `file.directory(header)`, `dwarf.attr_string`) are
modelled as interface data: a unit carries the list of rows its line
program yields before an optional decode error, a row carries the result
of its file lookup, and string resolution is an explicit, possibly
failing, resolver function.
-/

/-- Decidable equality on `Except`, for evaluating concrete runs. -/
instance exceptDecEq {e a : Type} [DecidableEq e] [DecidableEq a] :
    DecidableEq (Except e a) := fun x y =>
  match x, y with
  | .ok u, .ok v =>
    if h : u = v then isTrue (by rw [h])
    else isFalse (fun hc => by cases hc; exact h rfl)
  | .error u, .error v =>
    if h : u = v then isTrue (by rw [h])
    else isFalse (fun hc => by cases hc; exact h rfl)
  | .ok _, .error _ => isFalse (fun hc => by cases hc)
  | .error _, .ok _ => isFalse (fun hc => by cases hc)

namespace SimpleLine

/-- Decode and resolution errors (`gimli::Error`), abstracted. -/
inductive DwError where
  | malformedLineProgram
  | badStringOffset
  | otherError (code : Nat)
deriving DecidableEq

/-- Modelled from the spec: the string-resolution capability
`resolve_string_at(section, offset) -> string` used by `dwarf.attr_string`
to turn string-table references for directory and file names into strings;
resolution of a bad offset fails (the gimli library sources are not under
`src/`, only the example that calls them). -/
abbrev StrResolver := Nat → Except DwError String

/-- A filesystem path as a list of pushed components (`std::path::PathBuf`). -/
abbrev DwPath := List String

/-- Whether a pushed component is an absolute path (`Path::is_absolute`,
on unix: begins with a slash). -/
def isAbsolute (s : String) : Bool :=
  match s.data with
  | [] => false
  | c :: _ => c == '/'

/-- `PathBuf::push`: pushing an absolute path replaces the whole path,
pushing a relative one appends it. -/
def pushPath (p : DwPath) (s : String) : DwPath :=
  if isAbsolute s then [s] else p ++ [s]

/-- The part of a gimli `FileEntry` the example reads: the directory index
and the string reference for the file name (`file.path_name()`). -/
structure FileEntry where
  directory_index : Nat
  path_name : Nat
deriving DecidableEq

/-- `gimli::ColumnType`: either the left edge (no column information) or a
column value (a `NonZeroU64` in gimli, hence never 0). -/
inductive ColumnType where
  | leftEdge
  | column (c : Nat)
deriving DecidableEq

/-- A decoded line-program row, as the example reads it from the library:
`row.address()`, `row.end_sequence()`, `row.file(header)` (the file-table
lookup result), `row.line()` (a `NonZeroU64` when present), `row.column()`. -/
structure Row where
  address : Nat
  end_sequence : Bool
  file : Option FileEntry
  line : Option Nat
  column : ColumnType
deriving DecidableEq

/-- Modelled from the spec: the library lookup `file.directory(header)`,
which returns the string reference of
`include_directories[directory_index]` when present (the gimli library
sources are not under `src/`). -/
def directoryLookup (incDirs : List Nat) (idx : Nat) : Option Nat :=
  incDirs.get? idx

/-- Path determination for a row (`simple_line.rs` lines 96-116): start
from the compilation directory, push the include directory only when
`directory_index != 0`, then push the file name.  Each string resolution
uses the `?` operator, so a resolution failure propagates as an error.
A row whose file lookup returned nothing keeps the fresh empty path. -/
def resolvePath (res : StrResolver) (compDir : DwPath) (incDirs : List Nat) :
    Option FileEntry → Except DwError DwPath
  | none => .ok []
  | some f => do
    let base ←
      if f.directory_index ≠ 0 then
        match directoryLookup incDirs f.directory_index with
        | some dref => do
          let d ← res dref
          pure (pushPath compDir d)
        | none => pure compDir
      else
        pure compDir
    let name ← res f.path_name
    pure (pushPath base name)

/-- Line key (`simple_line.rs` lines 120-123): a missing line number is
keyed as 0. -/
def lineKey : Option Nat → Nat
  | some l => l
  | none => 0

/-- Column key (`simple_line.rs` lines 124-127): the left edge is keyed
as 0, a real column keeps its value. -/
def columnKey : ColumnType → Nat
  | .leftEdge => 0
  | .column c => c

/-- Per (path, line) accumulator: discovery-ordered address list and a
column -> occurrence-count map (the map is an insertion-ordered
association list standing in for the `HashMap`). -/
structure LineInfo where
  addresses : List Nat
  columns : List (Nat × Nat)
deriving DecidableEq

def emptyLineInfo : LineInfo := ⟨[], []⟩

/-- `columns.entry(column).or_default(); occurrences += 1`: bump the count
stored at a column, inserting it with count 1 when unseen. -/
def bumpColumn : List (Nat × Nat) → Nat → List (Nat × Nat)
  | [], c => [(c, 1)]
  | (c', n) :: rest, c =>
    if c' = c then (c', n + 1) :: rest else (c', n) :: bumpColumn rest c

/-- One row lands in a LineInfo: bump its column count and append its
address (`simple_line.rs` lines 131-133). -/
def addRowToLineInfo (li : LineInfo) (c a : Nat) : LineInfo :=
  ⟨li.addresses ++ [a], bumpColumn li.columns c⟩

/-- line -> LineInfo map of one path (insertion-ordered association list
standing in for the inner `HashMap`). -/
abbrev Lines := List (Nat × LineInfo)

/-- The aggregate `bytes_on_line`: path -> line -> LineInfo. -/
abbrev Aggregate := List (DwPath × Lines)

/-- `lines.entry(Line(line)).or_default()` followed by the row update:
find-or-create the LineInfo at a line and add the row to it. -/
def updateLines : Lines → Nat → Nat → Nat → Lines
  | [], l, c, a => [(l, addRowToLineInfo emptyLineInfo c a)]
  | (l', li) :: rest, l, c, a =>
    if l' = l then (l', addRowToLineInfo li c a) :: rest
    else (l', li) :: updateLines rest l c a

/-- `bytes_on_line.entry(path).or_default()` followed by the line update:
find-or-create the Lines of a path and add the row under its line. -/
def updateAgg : Aggregate → DwPath → Nat → Nat → Nat → Aggregate
  | [], p, l, c, a => [(p, updateLines [] l c a)]
  | (p', ls) :: rest, p, l, c, a =>
    if p' = p then (p', updateLines ls l c a) :: rest
    else (p', ls) :: updateAgg rest p l c a

/-- Processing of one decoded row (`simple_line.rs` lines 92-136): an
end-of-sequence row is only informational and leaves the aggregate
unchanged; any other row has its path resolved (errors propagate) and is
added under (path, line key, column key). -/
def aggRow (res : StrResolver) (compDir : DwPath) (incDirs : List Nat)
    (agg : Aggregate) (r : Row) : Except DwError Aggregate :=
  if r.end_sequence then .ok agg
  else do
    let p ← resolvePath res compDir incDirs r.file
    pure (updateAgg agg p (lineKey r.line) (columnKey r.column) r.address)

/-- The row loop of one line program: aggregate rows in order, stopping at
the first error. -/
def aggRows (res : StrResolver) (compDir : DwPath) (incDirs : List Nat) :
    Aggregate → List Row → Except DwError Aggregate
  | agg, [] => .ok agg
  | agg, r :: rest =>
    match aggRow res compDir incDirs agg r with
    | .ok agg2 => aggRows res compDir incDirs agg2 rest
    | .error e => .error e

/-- Aggregation of a row stream starting from the empty aggregate. -/
def aggregateRows (res : StrResolver) (compDir : DwPath) (incDirs : List Nat)
    (rows : List Row) : Except DwError Aggregate :=
  aggRows res compDir incDirs [] rows

/-- The compilation directory path (`simple_line.rs` lines 83-87):
`PathBuf::from` of the attribute when present, otherwise the empty path. -/
def compDirPath : Option String → DwPath
  | some s => [s]
  | none => []

/-- The stream a line program yields through `rows.next_row()`: the rows
successfully decoded, then an optional decode error (`next_row` failing). -/
structure LineProgram where
  rows : List Row
  decodeErr : Option DwError
deriving DecidableEq

/-- A compilation unit as the example reads it: compilation directory
attribute, include-directory string references, and the optional line
program. -/
structure CompUnit where
  comp_dir : Option String
  include_directories : List Nat
  line_program : Option LineProgram
deriving DecidableEq

/-- Per-unit processing (`simple_line.rs` lines 74-138): a unit without a
line program contributes nothing; otherwise its rows are aggregated and,
because the row loop uses `rows.next_row()?`, a decode error propagates
out of `dump_file` with the `?` operator. -/
def processUnit (res : StrResolver) (agg : Aggregate) (u : CompUnit) :
    Except DwError Aggregate :=
  match u.line_program with
  | none => .ok agg
  | some lp =>
    match aggRows res (compDirPath u.comp_dir) u.include_directories agg lp.rows with
    | .ok agg2 =>
      match lp.decodeErr with
      | some e => .error e
      | none => .ok agg2
    | .error e => .error e

/-- The unit loop: process units in order, stopping at the first error. -/
def processUnits (res : StrResolver) :
    Aggregate → List CompUnit → Except DwError Aggregate
  | agg, [] => .ok agg
  | agg, u :: rest =>
    match processUnit res agg u with
    | .ok agg2 => processUnits res agg2 rest
    | .error e => .error e

/-- One printed report line (`simple_line.rs` lines 155-167): path, line,
instruction count, and the hexadecimal addresses in discovery order. -/
structure ReportEntry where
  path : DwPath
  line : Nat
  instructions : Nat
  addr_hex : List String
deriving DecidableEq

/-- Sum of all column occurrence counts (`simple_line.rs` lines 150-153). -/
def instructionsOf (li : LineInfo) : Nat :=
  li.columns.foldl (fun acc p => acc + p.2) 0

/-- Hexadecimal address formatting, Rust `format!` with `{:#x}`. -/
def hexAddr (a : Nat) : String :=
  "0x" ++ String.mk (Nat.toDigits 16 a)

/-- Report lines of one path (`simple_line.rs` lines 142-169): a line is
emitted exactly when its instruction count exceeds 1. -/
def reportLines (p : DwPath) (ls : Lines) : List ReportEntry :=
  ls.filterMap fun e =>
    let ins := instructionsOf e.2
    if ins > 1 then some ⟨p, e.1, ins, e.2.addresses.map hexAddr⟩ else none

/-- The report pass over the whole aggregate (`simple_line.rs` lines
141-170). -/
def report (agg : Aggregate) : List ReportEntry :=
  (agg.map fun e => reportLines e.1 e.2).flatten

/-- The whole of `dump_file`: aggregate every unit, then report.  An error
anywhere propagates and no report is produced. -/
def dump_file (res : StrResolver) (units : List CompUnit) :
    Except DwError (List ReportEntry) :=
  match processUnits res [] units with
  | .ok agg => .ok (report agg)
  | .error e => .error e

/-- Lookup of the line map stored at a path, defaulting to the empty map
(the view an `entry(..).or_default()` call starts from). -/
def linesFor : Aggregate → DwPath → Lines
  | [], _ => []
  | (p', ls) :: rest, p => if p' = p then ls else linesFor rest p

/-- Lookup of the LineInfo stored at a line, defaulting to the empty one. -/
def infoFor : Lines → Nat → LineInfo
  | [], _ => emptyLineInfo
  | (l', li) :: rest, l => if l' = l then li else infoFor rest l

/-- Lookup of the occurrence count stored at a column, defaulting to 0. -/
def colCount : List (Nat × Nat) → Nat → Nat
  | [], _ => 0
  | (c', n) :: rest, c => if c' = c then n else colCount rest c

/-- Modelled from the spec: the merge step of the concurrency design adds
an occurrence count into a column map, summing on collision (the example
itself is single threaded and has no merge; the spec describes merging by
"summing column counts on key collision"). -/
def addColCount : List (Nat × Nat) → Nat → Nat → List (Nat × Nat)
  | [], c, n => [(c, n)]
  | (c', m) :: rest, c, n =>
    if c' = c then (c', m + n) :: rest else (c', m) :: addColCount rest c n

/-- Modelled from the spec: merging two column maps sums the counts of
colliding columns and appends the new ones. -/
def mergeCols (a b : List (Nat × Nat)) : List (Nat × Nat) :=
  b.foldl (fun cs e => addColCount cs e.1 e.2) a

/-- Modelled from the spec: merging two LineInfo values concatenates their
address lists and merges their column maps. -/
def mergeLineInfo (x y : LineInfo) : LineInfo :=
  ⟨x.addresses ++ y.addresses, mergeCols x.columns y.columns⟩

/-- Modelled from the spec: insert one line entry into a line map, merging
LineInfo on key collision. -/
def insertLineMerged : Lines → Nat → LineInfo → Lines
  | [], l, li => [(l, li)]
  | (l', li') :: rest, l, li =>
    if l' = l then (l', mergeLineInfo li' li) :: rest
    else (l', li') :: insertLineMerged rest l li

/-- Modelled from the spec: merging two line maps folds the entries of the
second into the first. -/
def mergeLines (a b : Lines) : Lines :=
  b.foldl (fun ls e => insertLineMerged ls e.1 e.2) a

/-- Modelled from the spec: insert one path entry into an aggregate,
merging the line maps on key collision. -/
def insertPathMerged : Aggregate → DwPath → Lines → Aggregate
  | [], p, ls => [(p, ls)]
  | (p', ls') :: rest, p, ls =>
    if p' = p then (p', mergeLines ls' ls) :: rest
    else (p', ls') :: insertPathMerged rest p ls

/-- Modelled from the spec: the union of two per-unit aggregates, merging
LineInfo on key collision. -/
def mergeAgg (a b : Aggregate) : Aggregate :=
  b.foldl (fun m e => insertPathMerged m e.1 e.2) a

/-- The column keys stored in a column map. -/
def colKeys (cs : List (Nat × Nat)) : List Nat := cs.map Prod.fst

/-- The line keys stored in a line map. -/
def lineKeys (ls : Lines) : List Nat := ls.map Prod.fst

/-- The path keys stored in an aggregate. -/
def pathKeys (agg : Aggregate) : List DwPath := agg.map Prod.fst

/-- Key sanity of an aggregate: path keys are distinct and so are the line
keys inside each path (true of every aggregate the code builds, since the
real maps are `HashMap`s). -/
def aggNodup (agg : Aggregate) : Prop :=
  (pathKeys agg).Nodup ∧ ∀ e ∈ agg, (lineKeys e.2).Nodup

/-- Count and address-list consistency of one LineInfo: the column counts
sum to the number of collected addresses and every stored count is
positive. -/
def liWF (li : LineInfo) : Prop :=
  instructionsOf li = li.addresses.length ∧ ∀ e ∈ li.columns, 1 ≤ e.2

/-- Count and address-list consistency of every LineInfo of an aggregate. -/
def aggWF (agg : Aggregate) : Prop :=
  ∀ e ∈ agg, ∀ le ∈ e.2, liWF le.2

theorem colCount_bumpColumn_same (cs : List (Nat × Nat)) (c : Nat) :
    colCount (bumpColumn cs c) c = colCount cs c + 1 := by
  induction cs with
  | nil => simp [bumpColumn, colCount]
  | cons e rest ih =>
    obtain ⟨c2, n⟩ := e
    by_cases h : c2 = c
    · simp [bumpColumn, colCount, h]
    · simp [bumpColumn, colCount, h, ih]

theorem colCount_bumpColumn_other (cs : List (Nat × Nat)) (c c2 : Nat)
    (h : c2 ≠ c) : colCount (bumpColumn cs c) c2 = colCount cs c2 := by
  induction cs with
  | nil => simp [bumpColumn, colCount, Ne.symm h]
  | cons e rest ih =>
    obtain ⟨c3, n⟩ := e
    by_cases h3 : c3 = c
    · subst h3
      simp [bumpColumn, colCount, Ne.symm h]
    · by_cases h4 : c3 = c2 <;> simp [bumpColumn, colCount, h3, h4, h, ih]

theorem infoFor_updateLines_same (ls : Lines) (l c a : Nat) :
    infoFor (updateLines ls l c a) l = addRowToLineInfo (infoFor ls l) c a := by
  induction ls with
  | nil => simp [updateLines, infoFor]
  | cons e rest ih =>
    obtain ⟨l2, li⟩ := e
    by_cases h : l2 = l
    · simp [updateLines, infoFor, h]
    · simp [updateLines, infoFor, h, ih]

theorem infoFor_updateLines_other (ls : Lines) (l l2 c a : Nat)
    (h : l2 ≠ l) : infoFor (updateLines ls l c a) l2 = infoFor ls l2 := by
  induction ls with
  | nil => simp [updateLines, infoFor, Ne.symm h]
  | cons e rest ih =>
    obtain ⟨l3, li⟩ := e
    by_cases h3 : l3 = l
    · subst h3
      simp [updateLines, infoFor, Ne.symm h]
    · by_cases h4 : l3 = l2 <;> simp [updateLines, infoFor, h3, h4, h, ih]

theorem linesFor_updateAgg_same (agg : Aggregate) (p : DwPath) (l c a : Nat) :
    linesFor (updateAgg agg p l c a) p = updateLines (linesFor agg p) l c a := by
  induction agg with
  | nil => simp [updateAgg, linesFor]
  | cons e rest ih =>
    obtain ⟨p2, ls⟩ := e
    by_cases h : p2 = p
    · simp [updateAgg, linesFor, h]
    · simp [updateAgg, linesFor, h, ih]

theorem linesFor_updateAgg_other (agg : Aggregate) (p p2 : DwPath) (l c a : Nat)
    (h : p2 ≠ p) : linesFor (updateAgg agg p l c a) p2 = linesFor agg p2 := by
  induction agg with
  | nil => simp [updateAgg, linesFor, Ne.symm h]
  | cons e rest ih =>
    obtain ⟨p3, ls⟩ := e
    by_cases h3 : p3 = p
    · subst h3
      simp [updateAgg, linesFor, Ne.symm h]
    · by_cases h4 : p3 = p2 <;> simp [updateAgg, linesFor, h3, h4, h, ih]

theorem aggRow_end_sequence (res : StrResolver) (cd : DwPath) (dirs : List Nat)
    (agg : Aggregate) (r : Row) (h : r.end_sequence = true) :
    aggRow res cd dirs agg r = .ok agg := by
  simp [aggRow, h]

theorem aggRow_ok (res : StrResolver) (cd : DwPath) (dirs : List Nat)
    (agg : Aggregate) (r : Row) (p : DwPath)
    (h : r.end_sequence = false) (hres : resolvePath res cd dirs r.file = .ok p) :
    aggRow res cd dirs agg r =
      .ok (updateAgg agg p (lineKey r.line) (columnKey r.column) r.address) := by
  simp [aggRow, h, hres, Except.bind]

theorem mem_report_iff (agg : Aggregate) (e : ReportEntry) :
    e ∈ report agg ↔
      ∃ p ls l li, (p, ls) ∈ agg ∧ (l, li) ∈ ls ∧ 1 < instructionsOf li
        ∧ e = ⟨p, l, instructionsOf li, li.addresses.map hexAddr⟩ := by
  constructor
  · intro he
    rw [report, List.mem_flatten] at he
    obtain ⟨sub, hsub, hesub⟩ := he
    rw [List.mem_map] at hsub
    obtain ⟨⟨p, ls⟩, hmem, rfl⟩ := hsub
    rw [reportLines, List.mem_filterMap] at hesub
    obtain ⟨⟨l, li⟩, hls, he2⟩ := hesub
    dsimp only at he2
    by_cases h : instructionsOf li > 1
    · rw [if_pos h] at he2
      exact ⟨p, ls, l, li, hmem, hls, h, (Option.some.inj he2).symm⟩
    · rw [if_neg h] at he2
      cases he2
  · rintro ⟨p, ls, l, li, hmem, hls, h, rfl⟩
    rw [report, List.mem_flatten]
    refine ⟨reportLines p ls, List.mem_map.mpr ⟨(p, ls), hmem, rfl⟩, ?_⟩
    rw [reportLines, List.mem_filterMap]
    exact ⟨(l, li), hls, by simp [h]⟩

/-- C2: a report entry exists exactly for the (path, line) entries of the
aggregate whose summed column occurrence counts exceed 1, and such an entry
carries the path, the line, that instruction count, and the complete
address list in aggregation-discovery order formatted as hexadecimal; an
entry with instruction count 1 is never emitted. -/
theorem C2_report_rule :
    ∀ (agg : Aggregate) (e : ReportEntry),
      e ∈ report agg ↔
        ∃ p ls l li, (p, ls) ∈ agg ∧ (l, li) ∈ ls ∧ 1 < instructionsOf li
          ∧ e = ⟨p, l, instructionsOf li, li.addresses.map hexAddr⟩ :=
  fun agg e => mem_report_iff agg e

/-- C3: an end-of-sequence row leaves the aggregate completely unchanged;
any other row, once its path resolves to p, is aggregated by find-or-create
at (p, line key): its address is appended to that LineInfo and the count of
its column key is incremented by exactly 1 (an unseen column starting from
the default 0), while every other column and every other (path, line) stay
untouched. -/
theorem C3_aggregation_step :
    (∀ (res : StrResolver) (cd : DwPath) (dirs : List Nat) (agg : Aggregate) (r : Row),
      r.end_sequence = true → aggRow res cd dirs agg r = .ok agg)
    ∧ (∀ (res : StrResolver) (cd : DwPath) (dirs : List Nat) (agg : Aggregate)
        (r : Row) (p : DwPath),
      r.end_sequence = false → resolvePath res cd dirs r.file = .ok p →
      ∃ agg2,
        aggRow res cd dirs agg r = .ok agg2
        ∧ agg2 = updateAgg agg p (lineKey r.line) (columnKey r.column) r.address
        ∧ (infoFor (linesFor agg2 p) (lineKey r.line)).addresses
            = (infoFor (linesFor agg p) (lineKey r.line)).addresses ++ [r.address]
        ∧ colCount (infoFor (linesFor agg2 p) (lineKey r.line)).columns (columnKey r.column)
            = colCount (infoFor (linesFor agg p) (lineKey r.line)).columns (columnKey r.column) + 1
        ∧ (∀ c2, c2 ≠ columnKey r.column →
            colCount (infoFor (linesFor agg2 p) (lineKey r.line)).columns c2
              = colCount (infoFor (linesFor agg p) (lineKey r.line)).columns c2)
        ∧ (∀ p2 l2, p2 ≠ p ∨ l2 ≠ lineKey r.line →
            infoFor (linesFor agg2 p2) l2 = infoFor (linesFor agg p2) l2)) := by
  constructor
  · exact fun res cd dirs agg r h => aggRow_end_sequence res cd dirs agg r h
  · intro res cd dirs agg r p h hres
    refine ⟨_, aggRow_ok res cd dirs agg r p h hres, rfl, ?_, ?_, ?_, ?_⟩
    · rw [linesFor_updateAgg_same, infoFor_updateLines_same]
      simp [addRowToLineInfo]
    · rw [linesFor_updateAgg_same, infoFor_updateLines_same]
      simp only [addRowToLineInfo]
      exact colCount_bumpColumn_same _ _
    · intro c2 hc2
      rw [linesFor_updateAgg_same, infoFor_updateLines_same]
      simp only [addRowToLineInfo]
      exact colCount_bumpColumn_other _ _ _ hc2
    · intro p2 l2 hor
      rcases hor with hp | hl
      · rw [linesFor_updateAgg_other _ _ _ _ _ _ hp]
      · by_cases hp : p2 = p
        · subst hp
          rw [linesFor_updateAgg_same, infoFor_updateLines_other _ _ _ _ _ hl]
        · rw [linesFor_updateAgg_other _ _ _ _ _ _ hp]

def resC3 : StrResolver := fun _ => .ok "n"

def rowC3 : Row := ⟨4096, false, some ⟨0, 1⟩, some 7, .column 2⟩

theorem C3_witness :
    rowC3.end_sequence = false
    ∧ resolvePath resC3 ["cd"] [] rowC3.file = .ok ["cd", "n"]
    ∧ ∃ agg2, aggRow resC3 ["cd"] [] [] rowC3 = .ok agg2
        ∧ agg2 = updateAgg [] ["cd", "n"] (lineKey rowC3.line)
            (columnKey rowC3.column) rowC3.address := by
  refine ⟨rfl, by decide, ?_⟩
  obtain ⟨agg2, h1, h2, -⟩ :=
    C3_aggregation_step.2 resC3 ["cd"] [] [] rowC3 ["cd", "n"] rfl (by decide)
  exact ⟨agg2, h1, h2⟩

/-- C4: a row whose file entry has directory index 0 resolves to the
compilation directory joined with the file name, independently of the
include-directory table; a row with a nonzero directory index additionally
joins the indexed include directory between the compilation directory and
the file name (join meaning the push operation of `PathBuf`). -/
theorem C4_directory_index_rule :
    (∀ (res : StrResolver) (cd : DwPath) (dirs dirs2 : List Nat) (f : FileEntry),
      f.directory_index = 0 →
      resolvePath res cd dirs (some f) = resolvePath res cd dirs2 (some f))
    ∧ (∀ (res : StrResolver) (cd : DwPath) (dirs : List Nat) (f : FileEntry)
        (name : String),
      f.directory_index = 0 → res f.path_name = .ok name →
      resolvePath res cd dirs (some f) = .ok (pushPath cd name))
    ∧ (∀ (res : StrResolver) (cd : DwPath) (dirs : List Nat) (f : FileEntry)
        (dref : Nat) (d name : String),
      f.directory_index ≠ 0 → directoryLookup dirs f.directory_index = some dref →
      res dref = .ok d → res f.path_name = .ok name →
      resolvePath res cd dirs (some f) = .ok (pushPath (pushPath cd d) name)) := by
  refine ⟨?_, ?_, ?_⟩
  · intro res cd dirs dirs2 f h
    simp [resolvePath, h]
  · intro res cd dirs f name h hname
    simp [resolvePath, h, hname, Except.bind]
  · intro res cd dirs f dref d name h hdir hd hname
    simp only [resolvePath, h, hdir, hd, hname, ne_eq, not_false_eq_true, if_pos]
    rfl

def resC4 : StrResolver := fun n => if n = 1 then .ok "inc" else .ok "file"

theorem C4_witness :
    (FileEntry.directory_index ⟨0, 2⟩ = 0
      ∧ resolvePath resC4 ["cd"] [5] (some ⟨0, 2⟩) = .ok (pushPath ["cd"] "file"))
    ∧ (FileEntry.directory_index ⟨1, 2⟩ ≠ 0
      ∧ directoryLookup [9, 1] 1 = some 1
      ∧ resolvePath resC4 ["cd"] [9, 1] (some ⟨1, 2⟩)
          = .ok (pushPath (pushPath ["cd"] "inc") "file")) := by
  refine ⟨⟨rfl, ?_⟩, by decide, by decide, ?_⟩
  · exact C4_directory_index_rule.2.1 resC4 ["cd"] [5] ⟨0, 2⟩ "file" rfl rfl
  · exact C4_directory_index_rule.2.2 resC4 ["cd"] [9, 1] ⟨1, 2⟩ 1 "inc" "file"
      (by decide) rfl rfl rfl

/-- C6: a left-edge column is keyed as 0 and a real column value keeps its
value; since gimli column values are nonzero, the key 0 never collides with
a genuine column. -/
theorem C6_column_normalization :
    columnKey .leftEdge = 0
    ∧ ∀ c : Nat, 1 ≤ c → columnKey (.column c) = c ∧ columnKey (.column c) ≠ 0 := by
  refine ⟨rfl, fun c hc => ⟨rfl, ?_⟩⟩
  simp only [columnKey]
  omega

theorem C6_witness :
    columnKey .leftEdge = 0
    ∧ (columnKey (.column 3) = 3 ∧ columnKey (.column 3) ≠ 0) :=
  ⟨C6_column_normalization.1, C6_column_normalization.2 3 (by decide)⟩

/-- C7: a non-end-of-sequence row whose file lookup yields nothing resolves
to the empty path and is still aggregated, under the empty-path key, rather
than dropped. -/
theorem C7_empty_path_rows_kept :
    ∀ (res : StrResolver) (cd : DwPath) (dirs : List Nat) (agg : Aggregate) (r : Row),
      r.end_sequence = false → r.file = none →
      resolvePath res cd dirs r.file = .ok []
      ∧ aggRow res cd dirs agg r =
          .ok (updateAgg agg [] (lineKey r.line) (columnKey r.column) r.address)
      ∧ (infoFor (linesFor (updateAgg agg [] (lineKey r.line) (columnKey r.column)
            r.address) []) (lineKey r.line)).addresses
          = (infoFor (linesFor agg []) (lineKey r.line)).addresses ++ [r.address] := by
  intro res cd dirs agg r h hf
  have hres : resolvePath res cd dirs r.file = .ok [] := by rw [hf]; rfl
  refine ⟨hres, aggRow_ok res cd dirs agg r [] h hres, ?_⟩
  rw [linesFor_updateAgg_same, infoFor_updateLines_same]
  simp [addRowToLineInfo]

def resC7 : StrResolver := fun _ => .ok ""

def rowC7 : Row := ⟨4096, false, none, some 2, .leftEdge⟩

theorem C7_witness :
    rowC7.end_sequence = false ∧ rowC7.file = none
    ∧ resolvePath resC7 [] [] rowC7.file = .ok []
    ∧ aggRow resC7 [] [] [] rowC7 =
        .ok (updateAgg [] [] (lineKey rowC7.line) (columnKey rowC7.column)
          rowC7.address) := by
  obtain ⟨h1, h2, -⟩ := C7_empty_path_rows_kept resC7 [] [] [] rowC7 rfl rfl
  exact ⟨rfl, rfl, h1, h2⟩

/-- C10: a row carrying no line number is keyed under line 0 of its path
(the parallel of the column normalization), not dropped. -/
theorem C10_missing_line_normalization :
    lineKey none = 0
    ∧ ∀ (res : StrResolver) (cd : DwPath) (dirs : List Nat) (agg : Aggregate)
        (r : Row) (p : DwPath),
      r.end_sequence = false → r.line = none →
      resolvePath res cd dirs r.file = .ok p →
      aggRow res cd dirs agg r = .ok (updateAgg agg p 0 (columnKey r.column) r.address)
      ∧ (infoFor (linesFor (updateAgg agg p 0 (columnKey r.column) r.address) p)
            0).addresses
          = (infoFor (linesFor agg p) 0).addresses ++ [r.address] := by
  refine ⟨rfl, ?_⟩
  intro res cd dirs agg r p h hl hres
  have h0 : lineKey r.line = 0 := by rw [hl]; rfl
  constructor
  · have hx := aggRow_ok res cd dirs agg r p h hres
    rwa [h0] at hx
  · rw [linesFor_updateAgg_same, infoFor_updateLines_same]
    simp [addRowToLineInfo]

def resC10 : StrResolver := fun _ => .ok ""

def rowC10 : Row := ⟨8192, false, none, none, .leftEdge⟩

theorem C10_witness :
    rowC10.end_sequence = false ∧ rowC10.line = none
    ∧ resolvePath resC10 [] [] rowC10.file = .ok []
    ∧ aggRow resC10 [] [] [] rowC10 =
        .ok (updateAgg [] [] 0 (columnKey rowC10.column) rowC10.address) := by
  obtain ⟨h1, -⟩ :=
    (C10_missing_line_normalization.2 resC10 [] [] [] rowC10 [] rfl rfl (by decide))
  exact ⟨rfl, rfl, by decide, h1⟩


theorem processUnits_append (res : StrResolver) (agg : Aggregate)
    (xs ys : List CompUnit) :
    processUnits res agg (xs ++ ys) =
      match processUnits res agg xs with
      | .ok m => processUnits res m ys
      | .error e => .error e := by
  induction xs generalizing agg with
  | nil => simp [processUnits]
  | cons x xs ih =>
    simp only [List.cons_append, processUnits]
    cases processUnit res agg x with
    | ok m => exact ih m
    | error e => rfl

def resC1 : StrResolver := fun _ => .ok "f"

def rowC1a : Row := ⟨4096, false, none, some 5, .column 3⟩

def rowC1b : Row := ⟨4100, false, none, some 5, .column 7⟩

def unitC1a : CompUnit := ⟨none, [], some ⟨[rowC1a, rowC1b], none⟩⟩

def unitC1b : CompUnit := ⟨none, [], some ⟨[], some .malformedLineProgram⟩⟩

/-- C1 counterexample: the first unit alone aggregates two rows on one
(path, line) and its dump reports them; adding a second unit whose line
program fails to decode makes the whole dump return only the error — the
caller loses the first unit's aggregated rows and gets no partial report,
contradicting the claimed partial-result semantics. -/
theorem C1_counterexample :
    dump_file resC1 [unitC1a] = .ok [⟨[], 5, 2, ["0x1000", "0x1004"]⟩]
    ∧ dump_file resC1 [unitC1a, unitC1b] = .error .malformedLineProgram :=
  ⟨rfl, rfl⟩

/-- C1 amended: a unit-level decode failure aborts the entire dump, not
just the failing unit: as soon as some unit fails, `dump_file` propagates
that error to the caller and produces no report at all, so rows aggregated
from earlier units are never reported. -/
theorem C1_failure_aborts_whole_dump :
    ∀ (res : StrResolver) (units1 : List CompUnit) (u : CompUnit)
      (units2 : List CompUnit) (agg : Aggregate) (e : DwError),
      processUnits res [] units1 = .ok agg →
      processUnit res agg u = .error e →
      dump_file res (units1 ++ u :: units2) = .error e := by
  intro res units1 u units2 agg e h1 h2
  have hall : processUnits res [] (units1 ++ u :: units2) = .error e := by
    rw [processUnits_append, h1]
    simp [processUnits, h2]
  simp [dump_file, hall]

theorem C1_witness :
    processUnits resC1 [] [unitC1a]
        = .ok [([], [(5, ⟨[4096, 4100], [(3, 1), (7, 1)]⟩)])]
    ∧ processUnit resC1 [([], [(5, ⟨[4096, 4100], [(3, 1), (7, 1)]⟩)])] unitC1b
        = .error .malformedLineProgram
    ∧ dump_file resC1 ([unitC1a] ++ unitC1b :: [])
        = .error .malformedLineProgram := by
  refine ⟨by decide, by decide, ?_⟩
  exact C1_failure_aborts_whole_dump resC1 [unitC1a] unitC1b []
    [([], [(5, ⟨[4096, 4100], [(3, 1), (7, 1)]⟩)])] .malformedLineProgram
    (by decide) (by decide)

def resC5 : StrResolver := fun _ => .error .badStringOffset

def fileC5 : FileEntry := ⟨0, 7⟩

def rowC5 : Row := ⟨4096, false, some fileC5, some 3, .leftEdge⟩

def unitC5 : CompUnit := ⟨none, [], some ⟨[rowC5], none⟩⟩

/-- C5 counterexample: a row whose file name reference cannot be resolved
is not aggregated with an empty-string substitute; its path resolution
fails, the row aggregation fails, and the whole dump returns the
resolution error — contradicting the claimed empty-string downgrade. -/
theorem C5_counterexample :
    resolvePath resC5 [] [] (some fileC5) = .error .badStringOffset
    ∧ aggRow resC5 [] [] [] rowC5 = .error .badStringOffset
    ∧ dump_file resC5 [unitC5] = .error .badStringOffset :=
  ⟨rfl, rfl, rfl⟩

/-- C5 amended: a string-resolution failure for a directory or file name is
not downgraded to an empty string; the error propagates through the
question-mark operator, failing the path resolution and with it the
aggregation of the row, aborting the dump. -/
theorem C5_resolution_failure_aborts :
    (∀ (res : StrResolver) (cd : DwPath) (dirs : List Nat) (f : FileEntry)
        (e : DwError),
      f.directory_index = 0 → res f.path_name = .error e →
      resolvePath res cd dirs (some f) = .error e)
    ∧ (∀ (res : StrResolver) (cd : DwPath) (dirs : List Nat) (f : FileEntry)
        (dref : Nat) (e : DwError),
      f.directory_index ≠ 0 → directoryLookup dirs f.directory_index = some dref →
      res dref = .error e →
      resolvePath res cd dirs (some f) = .error e)
    ∧ (∀ (res : StrResolver) (cd : DwPath) (dirs : List Nat) (agg : Aggregate)
        (r : Row) (e : DwError),
      r.end_sequence = false → resolvePath res cd dirs r.file = .error e →
      aggRow res cd dirs agg r = .error e) := by
  refine ⟨?_, ?_, ?_⟩
  · intro res cd dirs f e h hname
    simp [resolvePath, h, hname, Except.bind]
  · intro res cd dirs f dref e h hdir hd
    simp only [resolvePath, h, hdir, hd, ne_eq, not_false_eq_true, if_pos]
    rfl
  · intro res cd dirs agg r e h hres
    simp [aggRow, h, hres, Except.bind]

theorem C5_witness :
    fileC5.directory_index = 0
    ∧ resC5 fileC5.path_name = .error .badStringOffset
    ∧ resolvePath resC5 [] [] (some fileC5) = .error .badStringOffset
    ∧ rowC5.end_sequence = false
    ∧ aggRow resC5 [] [] [] rowC5 = .error .badStringOffset := by
  refine ⟨rfl, rfl, ?_, rfl, ?_⟩
  · exact C5_resolution_failure_aborts.1 resC5 [] [] fileC5 .badStringOffset rfl rfl
  · exact C5_resolution_failure_aborts.2.2 resC5 [] [] [] rowC5 .badStringOffset rfl rfl

theorem foldl_add_shift (cs : List (Nat × Nat)) (n : Nat) :
    cs.foldl (fun acc e => acc + e.2) n = n + cs.foldl (fun acc e => acc + e.2) 0 := by
  induction cs generalizing n with
  | nil => simp
  | cons e rest ih =>
    simp only [List.foldl_cons]
    rw [ih (n + e.2), ih (0 + e.2)]
    omega

theorem bumpColumn_cons_eq (c n : Nat) (rest : List (Nat × Nat)) :
    bumpColumn ((c, n) :: rest) c = (c, n + 1) :: rest := by
  simp [bumpColumn]

theorem bumpColumn_cons_ne (c2 c n : Nat) (rest : List (Nat × Nat))
    (h : c2 ≠ c) : bumpColumn ((c2, n) :: rest) c = (c2, n) :: bumpColumn rest c := by
  simp [bumpColumn, h]

theorem sum_bumpColumn (cs : List (Nat × Nat)) (c : Nat) :
    (bumpColumn cs c).foldl (fun acc e => acc + e.2) 0
      = cs.foldl (fun acc e => acc + e.2) 0 + 1 := by
  induction cs with
  | nil => simp [bumpColumn]
  | cons e rest ih =>
    obtain ⟨c2, n⟩ := e
    by_cases h : c2 = c
    · subst h
      rw [bumpColumn_cons_eq, List.foldl_cons, List.foldl_cons]
      dsimp only
      rw [foldl_add_shift rest (0 + (n + 1)), foldl_add_shift rest (0 + n)]
      omega
    · rw [bumpColumn_cons_ne c2 c n rest h, List.foldl_cons, List.foldl_cons]
      dsimp only
      rw [foldl_add_shift (bumpColumn rest c) (0 + n), foldl_add_shift rest (0 + n), ih]
      omega

theorem bumpColumn_pos (cs : List (Nat × Nat)) (c : Nat)
    (h : ∀ e ∈ cs, 1 ≤ e.2) : ∀ e ∈ bumpColumn cs c, 1 ≤ e.2 := by
  induction cs with
  | nil =>
    intro e he
    simp only [bumpColumn, List.mem_singleton] at he
    subst he
    exact Nat.le_refl 1
  | cons x rest ih =>
    obtain ⟨c2, n⟩ := x
    intro e he
    by_cases h2 : c2 = c
    · subst h2
      rw [bumpColumn_cons_eq, List.mem_cons] at he
      rcases he with rfl | he
      · exact Nat.le_add_left 1 n
      · exact h e (List.mem_cons_of_mem _ he)
    · rw [bumpColumn_cons_ne c2 c n rest h2, List.mem_cons] at he
      rcases he with rfl | he
      · exact h (c2, n) (List.mem_cons_self _ _)
      · exact ih (fun x hx => h x (List.mem_cons_of_mem _ hx)) e he

theorem liWF_empty : liWF emptyLineInfo := by
  constructor
  · rfl
  · intro e he
    cases he

theorem liWF_addRow (li : LineInfo) (c a : Nat) (h : liWF li) :
    liWF (addRowToLineInfo li c a) := by
  obtain ⟨h1, h2⟩ := h
  constructor
  · show instructionsOf ⟨li.addresses ++ [a], bumpColumn li.columns c⟩ = _
    simp only [instructionsOf] at h1 ⊢
    rw [sum_bumpColumn, h1]
    simp [addRowToLineInfo]
  · exact bumpColumn_pos _ _ h2

theorem updateLines_cons_eq (l : Nat) (li : LineInfo) (rest : Lines)
    (c a : Nat) :
    updateLines ((l, li) :: rest) l c a = (l, addRowToLineInfo li c a) :: rest := by
  simp [updateLines]

theorem updateLines_cons_ne (l2 l : Nat) (li : LineInfo) (rest : Lines)
    (c a : Nat) (h : l2 ≠ l) :
    updateLines ((l2, li) :: rest) l c a = (l2, li) :: updateLines rest l c a := by
  simp [updateLines, h]

theorem updateAgg_cons_eq (p : DwPath) (ls : Lines) (rest : Aggregate)
    (l c a : Nat) :
    updateAgg ((p, ls) :: rest) p l c a = (p, updateLines ls l c a) :: rest := by
  simp [updateAgg]

theorem updateAgg_cons_ne (p2 p : DwPath) (ls : Lines) (rest : Aggregate)
    (l c a : Nat) (h : p2 ≠ p) :
    updateAgg ((p2, ls) :: rest) p l c a = (p2, ls) :: updateAgg rest p l c a := by
  simp [updateAgg, h]

theorem updateLines_liWF (ls : Lines) (l c a : Nat)
    (h : ∀ e ∈ ls, liWF e.2) : ∀ e ∈ updateLines ls l c a, liWF e.2 := by
  induction ls with
  | nil =>
    intro e he
    simp only [updateLines, List.mem_singleton] at he
    subst he
    exact liWF_addRow _ _ _ liWF_empty
  | cons x rest ih =>
    obtain ⟨l2, li⟩ := x
    intro e he
    by_cases h2 : l2 = l
    · subst h2
      rw [updateLines_cons_eq, List.mem_cons] at he
      rcases he with rfl | he
      · exact liWF_addRow _ _ _ (h (l2, li) (List.mem_cons_self _ _))
      · exact h e (List.mem_cons_of_mem _ he)
    · rw [updateLines_cons_ne l2 l li rest c a h2, List.mem_cons] at he
      rcases he with rfl | he
      · exact h (l2, li) (List.mem_cons_self _ _)
      · exact ih (fun x hx => h x (List.mem_cons_of_mem _ hx)) e he

theorem updateAgg_aggWF (agg : Aggregate) (p : DwPath) (l c a : Nat)
    (h : aggWF agg) : aggWF (updateAgg agg p l c a) := by
  induction agg with
  | nil =>
    intro e he
    simp only [updateAgg, List.mem_singleton] at he
    subst he
    exact updateLines_liWF [] l c a (fun x hx => by cases hx)
  | cons x rest ih =>
    obtain ⟨p2, ls⟩ := x
    intro e he
    by_cases h2 : p2 = p
    · subst h2
      rw [updateAgg_cons_eq, List.mem_cons] at he
      rcases he with rfl | he
      · exact updateLines_liWF ls l c a (h (p2, ls) (List.mem_cons_self _ _))
      · exact h e (List.mem_cons_of_mem _ he)
    · rw [updateAgg_cons_ne p2 p ls rest l c a h2, List.mem_cons] at he
      rcases he with rfl | he
      · exact h (p2, ls) (List.mem_cons_self _ _)
      · exact ih (fun x hx => h x (List.mem_cons_of_mem _ hx)) e he

theorem aggRow_ok_cases (res : StrResolver) (cd : DwPath) (dirs : List Nat)
    (agg agg2 : Aggregate) (r : Row)
    (hok : aggRow res cd dirs agg r = .ok agg2) :
    agg2 = agg ∨ ∃ p, resolvePath res cd dirs r.file = .ok p
      ∧ agg2 = updateAgg agg p (lineKey r.line) (columnKey r.column) r.address := by
  by_cases he : r.end_sequence
  · rw [aggRow_end_sequence res cd dirs agg r he] at hok
    injection hok with hok
    exact Or.inl hok.symm
  · have hf : r.end_sequence = false := by
      revert he
      cases r.end_sequence <;> simp
    have hsplit : (∃ p, resolvePath res cd dirs r.file = .ok p)
        ∨ (∃ e, resolvePath res cd dirs r.file = .error e) := by
      cases resolvePath res cd dirs r.file with
      | ok p => exact Or.inl ⟨p, rfl⟩
      | error e => exact Or.inr ⟨e, rfl⟩
    rcases hsplit with ⟨p, hres⟩ | ⟨e, hres⟩
    · rw [aggRow_ok res cd dirs agg r p hf hres] at hok
      injection hok with hok
      exact Or.inr ⟨p, hres, hok.symm⟩
    · rw [show aggRow res cd dirs agg r = .error e by
        simp [aggRow, hf, hres, Except.bind]] at hok
      exact Except.noConfusion hok

/-- C9: count and address consistency: the empty aggregate is consistent,
every successful aggregation step preserves the property that each
LineInfo has its column counts summing to the length of its address list
with every stored count positive, and for a consistent aggregate every
emitted report entry prints an instruction count equal to the number of
addresses it prints. -/
theorem C9_count_addresses_invariant :
    aggWF []
    ∧ (∀ (res : StrResolver) (cd : DwPath) (dirs : List Nat)
        (agg agg2 : Aggregate) (r : Row),
      aggWF agg → aggRow res cd dirs agg r = .ok agg2 → aggWF agg2)
    ∧ (∀ (agg : Aggregate) (e : ReportEntry),
      aggWF agg → e ∈ report agg → e.instructions = e.addr_hex.length) := by
  refine ⟨?_, ?_, ?_⟩
  · intro e he
    cases he
  · intro res cd dirs agg agg2 r h hok
    rcases aggRow_ok_cases res cd dirs agg agg2 r hok with rfl | ⟨p, -, rfl⟩
    · exact h
    · exact updateAgg_aggWF agg p _ _ _ h
  · intro agg e hwf he
    obtain ⟨p, ls, l, li, hmem, hls, -, rfl⟩ := (mem_report_iff agg e).mp he
    obtain ⟨h1, -⟩ := hwf (p, ls) hmem (l, li) hls
    simp [h1]

def aggC9 : Aggregate := [([], [(5, ⟨[4096, 4100], [(3, 1), (7, 1)]⟩)])]

def entC9 : ReportEntry := ⟨[], 5, 2, ["0x1000", "0x1004"]⟩

theorem C9_witness :
    aggWF aggC9 ∧ entC9 ∈ report aggC9
    ∧ entC9.instructions = entC9.addr_hex.length := by
  have hwf : aggWF aggC9 := by
    simp only [aggWF, liWF, aggC9]
    decide
  refine ⟨hwf, by decide, ?_⟩
  exact C9_count_addresses_invariant.2.2 aggC9 entC9 hwf (by decide)

theorem addColCount_cons_eq (c m n : Nat) (rest : List (Nat × Nat)) :
    addColCount ((c, m) :: rest) c n = (c, m + n) :: rest := by
  simp [addColCount]

theorem addColCount_cons_ne (c2 c m n : Nat) (rest : List (Nat × Nat))
    (h : c2 ≠ c) :
    addColCount ((c2, m) :: rest) c n = (c2, m) :: addColCount rest c n := by
  simp [addColCount, h]

theorem mergeCols_nil (a : List (Nat × Nat)) : mergeCols a [] = a := rfl

theorem mergeCols_cons (a : List (Nat × Nat)) (c n : Nat) (b : List (Nat × Nat)) :
    mergeCols a ((c, n) :: b) = mergeCols (addColCount a c n) b := rfl

theorem mergeCols_singleton (a : List (Nat × Nat)) (c n : Nat) :
    mergeCols a [(c, n)] = addColCount a c n := rfl

theorem mem_colKeys_addColCount_self (cs : List (Nat × Nat)) (c n : Nat) :
    c ∈ colKeys (addColCount cs c n) := by
  induction cs with
  | nil => simp [addColCount, colKeys]
  | cons x rest ih =>
    obtain ⟨c2, m⟩ := x
    by_cases h : c2 = c
    · subst h
      rw [addColCount_cons_eq]
      simp [colKeys]
    · rw [addColCount_cons_ne c2 c m n rest h]
      simp only [colKeys, List.map_cons, List.mem_cons]
      exact Or.inr ih

theorem mem_colKeys_addColCount (cs : List (Nat × Nat)) (c n j : Nat)
    (h : j ∈ colKeys cs) : j ∈ colKeys (addColCount cs c n) := by
  induction cs with
  | nil => cases h
  | cons x rest ih =>
    obtain ⟨c2, m⟩ := x
    simp only [colKeys, List.map_cons, List.mem_cons] at h
    by_cases h2 : c2 = c
    · subst h2
      rw [addColCount_cons_eq]
      simp only [colKeys, List.map_cons, List.mem_cons]
      rcases h with rfl | h
      · exact Or.inl rfl
      · exact Or.inr h
    · rw [addColCount_cons_ne c2 c m n rest h2]
      simp only [colKeys, List.map_cons, List.mem_cons]
      rcases h with rfl | h
      · exact Or.inl rfl
      · exact Or.inr (ih h)

theorem addColCount_combine (cs : List (Nat × Nat)) (c m n : Nat) :
    addColCount (addColCount cs c m) c n = addColCount cs c (m + n) := by
  induction cs with
  | nil => simp [addColCount]
  | cons x rest ih =>
    obtain ⟨c2, k⟩ := x
    by_cases h : c2 = c
    · subst h
      rw [addColCount_cons_eq, addColCount_cons_eq, addColCount_cons_eq, Nat.add_assoc]
    · rw [addColCount_cons_ne c2 c k m rest h, addColCount_cons_ne c2 c k n _ h,
        addColCount_cons_ne c2 c k (m + n) rest h, ih]

theorem addColCount_comm_ne (cs : List (Nat × Nat)) (c c2 m n : Nat)
    (hc : c ≠ c2) (hmem : c ∈ colKeys cs) :
    addColCount (addColCount cs c2 m) c n = addColCount (addColCount cs c n) c2 m := by
  induction cs with
  | nil => cases hmem
  | cons x rest ih =>
    obtain ⟨c3, k⟩ := x
    by_cases h3 : c3 = c
    · subst h3
      rw [addColCount_cons_ne c3 c2 k m rest (by exact hc),
        addColCount_cons_eq, addColCount_cons_eq,
        addColCount_cons_ne c3 c2 (k + n) m rest (by exact hc)]
    · have hmem2 : c ∈ colKeys rest := by
        simp only [colKeys, List.map_cons, List.mem_cons] at hmem
        rcases hmem with rfl | hmem
        · exact absurd rfl h3
        · exact hmem
      by_cases h4 : c3 = c2
      · subst h4
        rw [addColCount_cons_eq, addColCount_cons_ne c3 c k n rest h3,
          addColCount_cons_ne c3 c (k + m) n rest h3, addColCount_cons_eq]
      · rw [addColCount_cons_ne c3 c2 k m rest h4,
          addColCount_cons_ne c3 c k n _ h3,
          addColCount_cons_ne c3 c k n rest h3,
          addColCount_cons_ne c3 c2 k m _ h4, ih hmem2]

theorem addColCount_mergeCols_mem (b A : List (Nat × Nat)) (c n : Nat)
    (h : c ∈ colKeys A) :
    addColCount (mergeCols A b) c n = mergeCols (addColCount A c n) b := by
  induction b generalizing A with
  | nil => rfl
  | cons x b2 ih =>
    obtain ⟨c2, m⟩ := x
    rw [mergeCols_cons, mergeCols_cons,
      ih (addColCount A c2 m) (mem_colKeys_addColCount A c2 m c h)]
    by_cases h2 : c2 = c
    · subst h2
      rw [addColCount_combine, addColCount_combine, Nat.add_comm m n]
    · rw [addColCount_comm_ne A c c2 m n (fun hcc => h2 hcc.symm) h]

theorem addColCount_mergeCols (b a : List (Nat × Nat)) (c n : Nat) :
    addColCount (mergeCols a b) c n = mergeCols a (addColCount b c n) := by
  induction b generalizing a with
  | nil => rfl
  | cons x b2 ih =>
    obtain ⟨c2, m⟩ := x
    by_cases h : c2 = c
    · subst h
      rw [addColCount_cons_eq, mergeCols_cons, mergeCols_cons,
        addColCount_mergeCols_mem b2 (addColCount a c2 m) c2 n
          (mem_colKeys_addColCount_self a c2 m),
        addColCount_combine]
    · rw [addColCount_cons_ne c2 c m n b2 h, mergeCols_cons, mergeCols_cons, ih]

theorem mergeCols_assoc (a b c : List (Nat × Nat)) :
    mergeCols (mergeCols a b) c = mergeCols a (mergeCols b c) := by
  induction c generalizing b with
  | nil => rfl
  | cons x c2 ih =>
    obtain ⟨k, n⟩ := x
    rw [mergeCols_cons, mergeCols_cons, addColCount_mergeCols b a k n, ih]

theorem bumpColumn_eq_addColCount (cs : List (Nat × Nat)) (c : Nat) :
    bumpColumn cs c = addColCount cs c 1 := by
  induction cs with
  | nil => rfl
  | cons x rest ih =>
    obtain ⟨c2, m⟩ := x
    by_cases h : c2 = c
    · subst h
      rw [bumpColumn_cons_eq, addColCount_cons_eq]
    · rw [bumpColumn_cons_ne c2 c m rest h, addColCount_cons_ne c2 c m 1 rest h, ih]

theorem mergeLineInfo_assoc (x y z : LineInfo) :
    mergeLineInfo (mergeLineInfo x y) z = mergeLineInfo x (mergeLineInfo y z) := by
  simp [mergeLineInfo, List.append_assoc, mergeCols_assoc]

theorem addRow_mergeLineInfo (x y : LineInfo) (c a : Nat) :
    addRowToLineInfo (mergeLineInfo x y) c a
      = mergeLineInfo x (addRowToLineInfo y c a) := by
  simp [addRowToLineInfo, mergeLineInfo, bumpColumn_eq_addColCount,
    addColCount_mergeCols, List.append_assoc]

theorem addRow_empty_mergeLineInfo (li : LineInfo) (c a : Nat) :
    addRowToLineInfo li c a = mergeLineInfo li (addRowToLineInfo emptyLineInfo c a) := by
  simp only [addRowToLineInfo, mergeLineInfo, emptyLineInfo, bumpColumn_eq_addColCount,
    List.append_nil, LineInfo.mk.injEq, List.nil_append, true_and]
  rfl

theorem insertLineMerged_cons_eq (l : Nat) (li2 li : LineInfo) (rest : Lines) :
    insertLineMerged ((l, li2) :: rest) l li = (l, mergeLineInfo li2 li) :: rest := by
  simp [insertLineMerged]

theorem insertLineMerged_cons_ne (l2 l : Nat) (li2 li : LineInfo) (rest : Lines)
    (h : l2 ≠ l) :
    insertLineMerged ((l2, li2) :: rest) l li
      = (l2, li2) :: insertLineMerged rest l li := by
  simp [insertLineMerged, h]

theorem mergeLines_nil (a : Lines) : mergeLines a [] = a := rfl

theorem mergeLines_cons (a : Lines) (l : Nat) (li : LineInfo) (b : Lines) :
    mergeLines a ((l, li) :: b) = mergeLines (insertLineMerged a l li) b := rfl

theorem mergeLines_singleton (a : Lines) (l : Nat) (li : LineInfo) :
    mergeLines a [(l, li)] = insertLineMerged a l li := rfl

theorem mem_lineKeys_insert_self (ls : Lines) (l : Nat) (li : LineInfo) :
    l ∈ lineKeys (insertLineMerged ls l li) := by
  induction ls with
  | nil => simp [insertLineMerged, lineKeys]
  | cons x rest ih =>
    obtain ⟨l2, li2⟩ := x
    by_cases h : l2 = l
    · subst h
      rw [insertLineMerged_cons_eq]
      simp [lineKeys]
    · rw [insertLineMerged_cons_ne l2 l li2 li rest h]
      simp only [lineKeys, List.map_cons, List.mem_cons]
      exact Or.inr ih

theorem mem_lineKeys_insert (ls : Lines) (l j : Nat) (li : LineInfo)
    (h : j ∈ lineKeys ls) : j ∈ lineKeys (insertLineMerged ls l li) := by
  induction ls with
  | nil => cases h
  | cons x rest ih =>
    obtain ⟨l2, li2⟩ := x
    simp only [lineKeys, List.map_cons, List.mem_cons] at h
    by_cases h2 : l2 = l
    · subst h2
      rw [insertLineMerged_cons_eq]
      simp only [lineKeys, List.map_cons, List.mem_cons]
      rcases h with rfl | h
      · exact Or.inl rfl
      · exact Or.inr h
    · rw [insertLineMerged_cons_ne l2 l li2 li rest h2]
      simp only [lineKeys, List.map_cons, List.mem_cons]
      rcases h with rfl | h
      · exact Or.inl rfl
      · exact Or.inr (ih h)

theorem updateLines_insert_same (A : Lines) (l : Nat) (li2 : LineInfo) (c a : Nat) :
    updateLines (insertLineMerged A l li2) l c a
      = insertLineMerged A l (addRowToLineInfo li2 c a) := by
  induction A with
  | nil => simp [insertLineMerged, updateLines]
  | cons x rest ih =>
    obtain ⟨l3, li3⟩ := x
    by_cases h : l3 = l
    · subst h
      rw [insertLineMerged_cons_eq, updateLines_cons_eq, addRow_mergeLineInfo,
        insertLineMerged_cons_eq]
    · rw [insertLineMerged_cons_ne l3 l li3 li2 rest h,
        updateLines_cons_ne l3 l li3 _ c a h,
        insertLineMerged_cons_ne l3 l li3 _ rest h, ih]

theorem updateLines_insert_ne (A : Lines) (l l2 : Nat) (li2 : LineInfo)
    (c a : Nat) (h : l ≠ l2) (hmem : l ∈ lineKeys A) :
    updateLines (insertLineMerged A l2 li2) l c a
      = insertLineMerged (updateLines A l c a) l2 li2 := by
  induction A with
  | nil => cases hmem
  | cons x rest ih =>
    obtain ⟨l3, li3⟩ := x
    by_cases h3 : l3 = l2
    · subst h3
      rw [insertLineMerged_cons_eq, updateLines_cons_ne l3 l _ rest c a
          (fun hx => h hx.symm),
        updateLines_cons_ne l3 l li3 rest c a (fun hx => h hx.symm),
        insertLineMerged_cons_eq]
    · by_cases h4 : l3 = l
      · subst h4
        rw [insertLineMerged_cons_ne l3 l2 li3 li2 rest h3, updateLines_cons_eq,
          updateLines_cons_eq, insertLineMerged_cons_ne l3 l2 _ li2 rest h3]
      · have hmem2 : l ∈ lineKeys rest := by
          simp only [lineKeys, List.map_cons, List.mem_cons] at hmem
          rcases hmem with rfl | hmem
          · exact absurd rfl h4
          · exact hmem
        rw [insertLineMerged_cons_ne l3 l2 li3 li2 rest h3,
          updateLines_cons_ne l3 l li3 _ c a h4,
          updateLines_cons_ne l3 l li3 rest c a h4,
          insertLineMerged_cons_ne l3 l2 li3 li2 _ h3, ih hmem2]

theorem updateLines_eq_insert (A : Lines) (l c a : Nat) :
    updateLines A l c a
      = insertLineMerged A l (addRowToLineInfo emptyLineInfo c a) := by
  induction A with
  | nil => simp [updateLines, insertLineMerged]
  | cons x rest ih =>
    obtain ⟨l3, li3⟩ := x
    by_cases h : l3 = l
    · subst h
      rw [updateLines_cons_eq, insertLineMerged_cons_eq, addRow_empty_mergeLineInfo]
    · rw [updateLines_cons_ne l3 l li3 rest c a h,
        insertLineMerged_cons_ne l3 l li3 _ rest h, ih]

theorem updateLines_mergeLines (B A : Lines) (l c a : Nat)
    (hmem : l ∈ lineKeys A) (hnot : l ∉ lineKeys B) :
    updateLines (mergeLines A B) l c a = mergeLines (updateLines A l c a) B := by
  induction B generalizing A with
  | nil => rfl
  | cons x B2 ih =>
    obtain ⟨l2, li2⟩ := x
    have h2 : l ≠ l2 := fun hx =>
      hnot (by rw [hx]; exact List.mem_cons_self l2 (lineKeys B2))
    have hnot2 : l ∉ lineKeys B2 := fun hx =>
      hnot (List.mem_cons_of_mem l2 hx)
    rw [mergeLines_cons, mergeLines_cons,
      ih (insertLineMerged A l2 li2) (mem_lineKeys_insert A l2 l li2 hmem) hnot2,
      updateLines_insert_ne A l l2 li2 c a h2 hmem]

theorem updateLines_mergeLines_exchange (B A : Lines) (l c a : Nat)
    (hB : (lineKeys B).Nodup) :
    updateLines (mergeLines A B) l c a = mergeLines A (updateLines B l c a) := by
  induction B generalizing A with
  | nil => exact updateLines_eq_insert A l c a
  | cons x B2 ih =>
    obtain ⟨l2, li2⟩ := x
    have hB2 : (lineKeys B2).Nodup := by
      simp only [lineKeys, List.map_cons, List.nodup_cons] at hB
      exact hB.2
    by_cases h : l2 = l
    · subst h
      have hnot : l2 ∉ lineKeys B2 := by
        simp only [lineKeys, List.map_cons, List.nodup_cons] at hB
        exact hB.1
      rw [mergeLines_cons,
        updateLines_mergeLines B2 (insertLineMerged A l2 li2) l2 c a
          (mem_lineKeys_insert_self A l2 li2) hnot,
        updateLines_insert_same A l2 li2 c a, updateLines_cons_eq, mergeLines_cons]
    · rw [mergeLines_cons, ih (insertLineMerged A l2 li2) hB2,
        updateLines_cons_ne l2 l li2 B2 c a h, mergeLines_cons]

theorem insertPathMerged_cons_eq (p : DwPath) (ls2 ls : Lines) (rest : Aggregate) :
    insertPathMerged ((p, ls2) :: rest) p ls = (p, mergeLines ls2 ls) :: rest := by
  simp [insertPathMerged]

theorem insertPathMerged_cons_ne (p2 p : DwPath) (ls2 ls : Lines)
    (rest : Aggregate) (h : p2 ≠ p) :
    insertPathMerged ((p2, ls2) :: rest) p ls
      = (p2, ls2) :: insertPathMerged rest p ls := by
  simp [insertPathMerged, h]

theorem mergeAgg_nil (a : Aggregate) : mergeAgg a [] = a := rfl

theorem mergeAgg_cons (a : Aggregate) (p : DwPath) (ls : Lines) (b : Aggregate) :
    mergeAgg a ((p, ls) :: b) = mergeAgg (insertPathMerged a p ls) b := rfl

theorem mem_pathKeys_insert_self (M : Aggregate) (p : DwPath) (ls : Lines) :
    p ∈ pathKeys (insertPathMerged M p ls) := by
  induction M with
  | nil => simp [insertPathMerged, pathKeys]
  | cons x rest ih =>
    obtain ⟨p2, ls2⟩ := x
    by_cases h : p2 = p
    · subst h
      rw [insertPathMerged_cons_eq]
      simp [pathKeys]
    · rw [insertPathMerged_cons_ne p2 p ls2 ls rest h]
      simp only [pathKeys, List.map_cons, List.mem_cons]
      exact Or.inr ih

theorem mem_pathKeys_insert (M : Aggregate) (p j : DwPath) (ls : Lines)
    (h : j ∈ pathKeys M) : j ∈ pathKeys (insertPathMerged M p ls) := by
  induction M with
  | nil => cases h
  | cons x rest ih =>
    obtain ⟨p2, ls2⟩ := x
    simp only [pathKeys, List.map_cons, List.mem_cons] at h
    by_cases h2 : p2 = p
    · subst h2
      rw [insertPathMerged_cons_eq]
      simp only [pathKeys, List.map_cons, List.mem_cons]
      rcases h with rfl | h
      · exact Or.inl rfl
      · exact Or.inr h
    · rw [insertPathMerged_cons_ne p2 p ls2 ls rest h2]
      simp only [pathKeys, List.map_cons, List.mem_cons]
      rcases h with rfl | h
      · exact Or.inl rfl
      · exact Or.inr (ih h)

theorem updateAgg_insert_same (M : Aggregate) (p : DwPath) (qls : Lines)
    (l c a : Nat) (hq : (lineKeys qls).Nodup) :
    updateAgg (insertPathMerged M p qls) p l c a
      = insertPathMerged M p (updateLines qls l c a) := by
  induction M with
  | nil => simp [insertPathMerged, updateAgg]
  | cons x rest ih =>
    obtain ⟨p3, ls3⟩ := x
    by_cases h : p3 = p
    · subst h
      rw [insertPathMerged_cons_eq, updateAgg_cons_eq,
        updateLines_mergeLines_exchange qls ls3 l c a hq, insertPathMerged_cons_eq]
    · rw [insertPathMerged_cons_ne p3 p ls3 qls rest h,
        updateAgg_cons_ne p3 p ls3 _ l c a h,
        insertPathMerged_cons_ne p3 p ls3 _ rest h, ih]

theorem updateAgg_insert_ne (M : Aggregate) (p p2 : DwPath) (ls2 : Lines)
    (l c a : Nat) (h : p ≠ p2) (hmem : p ∈ pathKeys M) :
    updateAgg (insertPathMerged M p2 ls2) p l c a
      = insertPathMerged (updateAgg M p l c a) p2 ls2 := by
  induction M with
  | nil => cases hmem
  | cons x rest ih =>
    obtain ⟨p3, ls3⟩ := x
    by_cases h3 : p3 = p2
    · subst h3
      rw [insertPathMerged_cons_eq, updateAgg_cons_ne p3 p _ rest l c a
          (fun hx => h hx.symm),
        updateAgg_cons_ne p3 p ls3 rest l c a (fun hx => h hx.symm),
        insertPathMerged_cons_eq]
    · by_cases h4 : p3 = p
      · subst h4
        rw [insertPathMerged_cons_ne p3 p2 ls3 ls2 rest h3, updateAgg_cons_eq,
          updateAgg_cons_eq, insertPathMerged_cons_ne p3 p2 _ ls2 rest h3]
      · have hmem2 : p ∈ pathKeys rest := by
          simp only [pathKeys, List.map_cons, List.mem_cons] at hmem
          rcases hmem with rfl | hmem
          · exact absurd rfl h4
          · exact hmem
        rw [insertPathMerged_cons_ne p3 p2 ls3 ls2 rest h3,
          updateAgg_cons_ne p3 p ls3 _ l c a h4,
          updateAgg_cons_ne p3 p ls3 rest l c a h4,
          insertPathMerged_cons_ne p3 p2 ls3 ls2 _ h3, ih hmem2]

theorem updateAgg_eq_insert (M : Aggregate) (p : DwPath) (l c a : Nat) :
    updateAgg M p l c a = insertPathMerged M p (updateLines [] l c a) := by
  induction M with
  | nil => simp [updateAgg, insertPathMerged]
  | cons x rest ih =>
    obtain ⟨p3, ls3⟩ := x
    by_cases h : p3 = p
    · subst h
      rw [updateAgg_cons_eq, insertPathMerged_cons_eq]
      have : updateLines [] l c a = [(l, addRowToLineInfo emptyLineInfo c a)] := rfl
      rw [this, mergeLines_singleton, updateLines_eq_insert]
    · rw [updateAgg_cons_ne p3 p ls3 rest l c a h,
        insertPathMerged_cons_ne p3 p ls3 _ rest h, ih]

theorem updateAgg_mergeAgg (N M : Aggregate) (p : DwPath) (l c a : Nat)
    (hmem : p ∈ pathKeys M) (hnot : p ∉ pathKeys N) :
    updateAgg (mergeAgg M N) p l c a = mergeAgg (updateAgg M p l c a) N := by
  induction N generalizing M with
  | nil => rfl
  | cons x N2 ih =>
    obtain ⟨p2, ls2⟩ := x
    have h2 : p ≠ p2 := fun hx =>
      hnot (by rw [hx]; exact List.mem_cons_self p2 (pathKeys N2))
    have hnot2 : p ∉ pathKeys N2 := fun hx =>
      hnot (List.mem_cons_of_mem p2 hx)
    rw [mergeAgg_cons, mergeAgg_cons,
      ih (insertPathMerged M p2 ls2) (mem_pathKeys_insert M p2 p ls2 hmem) hnot2,
      updateAgg_insert_ne M p p2 ls2 l c a h2 hmem]

theorem aggNodup_cons (q : DwPath) (qls : Lines) (N : Aggregate)
    (h : aggNodup ((q, qls) :: N)) :
    q ∉ pathKeys N ∧ (lineKeys qls).Nodup ∧ aggNodup N := by
  obtain ⟨h1, h2⟩ := h
  simp only [pathKeys, List.map_cons, List.nodup_cons] at h1
  exact ⟨h1.1, h2 (q, qls) (List.mem_cons_self _ _), h1.2,
    fun e he => h2 e (List.mem_cons_of_mem _ he)⟩

theorem updateAgg_mergeAgg_exchange (N M : Aggregate) (p : DwPath) (l c a : Nat)
    (hN : aggNodup N) :
    updateAgg (mergeAgg M N) p l c a = mergeAgg M (updateAgg N p l c a) := by
  induction N generalizing M with
  | nil => exact updateAgg_eq_insert M p l c a
  | cons x N2 ih =>
    obtain ⟨q, qls⟩ := x
    obtain ⟨hq, hqls, hN2⟩ := aggNodup_cons q qls N2 hN
    by_cases h : q = p
    · subst h
      rw [mergeAgg_cons,
        updateAgg_mergeAgg N2 (insertPathMerged M q qls) q l c a
          (mem_pathKeys_insert_self M q qls) hq,
        updateAgg_insert_same M q qls l c a hqls, updateAgg_cons_eq, mergeAgg_cons]
    · rw [mergeAgg_cons, ih (insertPathMerged M q qls) hN2,
        updateAgg_cons_ne q p qls N2 l c a h, mergeAgg_cons]

theorem mem_lineKeys_updateLines (ls : Lines) (l c a j : Nat) :
    j ∈ lineKeys (updateLines ls l c a) ↔ j ∈ lineKeys ls ∨ j = l := by
  induction ls with
  | nil =>
    simp [updateLines, lineKeys]
  | cons x rest ih =>
    obtain ⟨l2, li2⟩ := x
    by_cases h : l2 = l
    · subst h
      rw [updateLines_cons_eq]
      simp only [lineKeys, List.map_cons, List.mem_cons]
      constructor
      · exact fun hx => Or.inl hx
      · rintro (hx | rfl)
        · exact hx
        · exact Or.inl rfl
    · rw [updateLines_cons_ne l2 l li2 rest c a h]
      simp only [lineKeys, List.map_cons, List.mem_cons] at ih ⊢
      rw [ih]
      tauto

theorem lineKeys_nodup_updateLines (ls : Lines) (l c a : Nat)
    (h : (lineKeys ls).Nodup) : (lineKeys (updateLines ls l c a)).Nodup := by
  induction ls with
  | nil => simp [updateLines, lineKeys]
  | cons x rest ih =>
    obtain ⟨l2, li2⟩ := x
    simp only [lineKeys, List.map_cons, List.nodup_cons] at h
    by_cases h2 : l2 = l
    · subst h2
      rw [updateLines_cons_eq]
      simp only [lineKeys, List.map_cons, List.nodup_cons]
      exact h
    · rw [updateLines_cons_ne l2 l li2 rest c a h2]
      simp only [lineKeys, List.map_cons, List.nodup_cons]
      constructor
      · intro hx
        rcases (mem_lineKeys_updateLines rest l c a l2).mp hx with hx2 | rfl
        · exact h.1 hx2
        · exact h2 rfl
      · exact ih h.2

theorem mem_pathKeys_updateAgg (agg : Aggregate) (p : DwPath) (l c a : Nat)
    (j : DwPath) :
    j ∈ pathKeys (updateAgg agg p l c a) ↔ j ∈ pathKeys agg ∨ j = p := by
  induction agg with
  | nil =>
    simp [updateAgg, pathKeys]
  | cons x rest ih =>
    obtain ⟨p2, ls2⟩ := x
    by_cases h : p2 = p
    · subst h
      rw [updateAgg_cons_eq]
      simp only [pathKeys, List.map_cons, List.mem_cons]
      constructor
      · exact fun hx => Or.inl hx
      · rintro (hx | rfl)
        · exact hx
        · exact Or.inl rfl
    · rw [updateAgg_cons_ne p2 p ls2 rest l c a h]
      simp only [pathKeys, List.map_cons, List.mem_cons] at ih ⊢
      rw [ih]
      tauto

theorem aggNodup_nil : aggNodup [] := by
  constructor
  · exact List.nodup_nil
  · intro e he
    cases he

theorem aggNodup_updateAgg (agg : Aggregate) (p : DwPath) (l c a : Nat)
    (h : aggNodup agg) : aggNodup (updateAgg agg p l c a) := by
  induction agg with
  | nil =>
    constructor
    · simp [updateAgg, pathKeys]
    · intro e he
      simp only [updateAgg, List.mem_singleton] at he
      subst he
      simp [updateLines, lineKeys]
  | cons x rest ih =>
    obtain ⟨p2, ls2⟩ := x
    obtain ⟨hq, hls2, hrest⟩ := aggNodup_cons p2 ls2 rest h
    by_cases h2 : p2 = p
    · subst h2
      rw [updateAgg_cons_eq]
      constructor
      · simp only [pathKeys, List.map_cons, List.nodup_cons]
        exact ⟨hq, hrest.1⟩
      · intro e he
        rw [List.mem_cons] at he
        rcases he with rfl | he
        · exact lineKeys_nodup_updateLines ls2 l c a hls2
        · exact hrest.2 e he
    · rw [updateAgg_cons_ne p2 p ls2 rest l c a h2]
      have ih2 := ih hrest
      constructor
      · simp only [pathKeys, List.map_cons, List.nodup_cons]
        constructor
        · intro hx
          rcases (mem_pathKeys_updateAgg rest p l c a p2).mp hx with hx2 | rfl
          · exact hq hx2
          · exact h2 rfl
        · exact ih2.1
      · intro e he
        rw [List.mem_cons] at he
        rcases he with rfl | he
        · exact hls2
        · exact ih2.2 e he

theorem aggRow_ok_of_not_end (res : StrResolver) (cd : DwPath) (dirs : List Nat)
    (agg agg2 : Aggregate) (r : Row) (hf : r.end_sequence = false)
    (hok : aggRow res cd dirs agg r = .ok agg2) :
    ∃ p, resolvePath res cd dirs r.file = .ok p
      ∧ agg2 = updateAgg agg p (lineKey r.line) (columnKey r.column) r.address := by
  have hsplit : (∃ p, resolvePath res cd dirs r.file = .ok p)
      ∨ (∃ e, resolvePath res cd dirs r.file = .error e) := by
    cases resolvePath res cd dirs r.file with
    | ok p => exact Or.inl ⟨p, rfl⟩
    | error e => exact Or.inr ⟨e, rfl⟩
  rcases hsplit with ⟨p, hres⟩ | ⟨e, hres⟩
  · rw [aggRow_ok res cd dirs agg r p hf hres] at hok
    injection hok with hok
    exact ⟨p, hres, hok.symm⟩
  · rw [show aggRow res cd dirs agg r = .error e by
      simp [aggRow, hf, hres, Except.bind]] at hok
    exact Except.noConfusion hok

theorem aggRows_append (res : StrResolver) (cd : DwPath) (dirs : List Nat)
    (agg : Aggregate) (xs ys : List Row) :
    aggRows res cd dirs agg (xs ++ ys) =
      match aggRows res cd dirs agg xs with
      | .ok m => aggRows res cd dirs m ys
      | .error e => .error e := by
  induction xs generalizing agg with
  | nil => simp [aggRows]
  | cons x xs ih =>
    simp only [List.cons_append, aggRows]
    cases aggRow res cd dirs agg x with
    | ok m => exact ih m
    | error e => rfl

theorem aggRows_nodup (res : StrResolver) (cd : DwPath) (dirs : List Nat)
    (rows : List Row) (agg N : Aggregate)
    (h : aggNodup agg) (hok : aggRows res cd dirs agg rows = .ok N) :
    aggNodup N := by
  induction rows generalizing agg with
  | nil =>
    simp only [aggRows] at hok
    injection hok with hok
    rwa [← hok]
  | cons r rows ih =>
    simp only [aggRows] at hok
    cases hr : aggRow res cd dirs agg r with
    | ok m =>
      rw [hr] at hok
      have hok2 : aggRows res cd dirs m rows = .ok N := hok
      rcases aggRow_ok_cases res cd dirs agg m r hr with heq | ⟨p, -, heq⟩
      · subst heq
        exact ih _ h hok2
      · subst heq
        exact ih _ (aggNodup_updateAgg agg p _ _ _ h) hok2
    | error e =>
      rw [hr] at hok
      exact Except.noConfusion hok

theorem aggRows_single_ok (res : StrResolver) (cd : DwPath) (dirs : List Nat)
    (agg agg2 : Aggregate) (r : Row)
    (h : aggRow res cd dirs agg r = .ok agg2) :
    aggRows res cd dirs agg [r] = .ok agg2 := by
  simp only [aggRows, h]

theorem aggRows_from_merge (res : StrResolver) (cd : DwPath) (dirs : List Nat)
    (rows : List Row) (M N : Aggregate)
    (hok : aggRows res cd dirs [] rows = .ok N) :
    aggRows res cd dirs M rows = .ok (mergeAgg M N) := by
  induction rows using List.reverseRecOn generalizing N with
  | nil =>
    simp only [aggRows] at hok ⊢
    injection hok with hok
    rw [← hok, mergeAgg_nil]
  | append_singleton xs r ih =>
    rw [aggRows_append] at hok
    cases h0 : aggRows res cd dirs [] xs with
    | error e =>
      rw [h0] at hok
      exact Except.noConfusion hok
    | ok N0 =>
      rw [h0] at hok
      have hok2 : aggRows res cd dirs N0 [r] = .ok N := hok
      have hrow : aggRow res cd dirs N0 r = .ok N := by
        simp only [aggRows] at hok2
        cases hr : aggRow res cd dirs N0 r with
        | ok m =>
          rw [hr] at hok2
          exact hok2
        | error e =>
          rw [hr] at hok2
          exact hok2
      rw [aggRows_append, ih N0 h0]
      show aggRows res cd dirs (mergeAgg M N0) [r] = .ok (mergeAgg M N)
      by_cases he : r.end_sequence
      · rw [aggRow_end_sequence res cd dirs N0 r he] at hrow
        injection hrow with hrow
        subst hrow
        exact aggRows_single_ok res cd dirs _ _ r
          (aggRow_end_sequence res cd dirs (mergeAgg M N0) r he)
      · have hf : r.end_sequence = false := by
          revert he
          cases r.end_sequence <;> simp
        obtain ⟨p, hres, heq⟩ := aggRow_ok_of_not_end res cd dirs N0 N r hf hrow
        subst heq
        have hN0 : aggNodup N0 := aggRows_nodup res cd dirs xs [] N0 aggNodup_nil h0
        rw [← updateAgg_mergeAgg_exchange N0 M p (lineKey r.line)
          (columnKey r.column) r.address hN0]
        exact aggRows_single_ok res cd dirs _ _ r
          (aggRow_ok res cd dirs (mergeAgg M N0) r p hf hres)

theorem colCount_cons_eq (c n : Nat) (rest : List (Nat × Nat)) :
    colCount ((c, n) :: rest) c = n := by
  simp [colCount]

theorem colCount_cons_ne (c2 c n : Nat) (rest : List (Nat × Nat)) (h : c2 ≠ c) :
    colCount ((c2, n) :: rest) c = colCount rest c := by
  simp [colCount, h]

theorem colCount_addColCount (cs : List (Nat × Nat)) (c n j : Nat) :
    colCount (addColCount cs c n) j
      = if j = c then colCount cs j + n else colCount cs j := by
  induction cs with
  | nil =>
    by_cases h : j = c
    · subst h
      simp [addColCount, colCount]
    · simp [addColCount, colCount, h, Ne.symm h]
  | cons x rest ih =>
    obtain ⟨c2, m⟩ := x
    by_cases h2 : c2 = c
    · subst h2
      rw [addColCount_cons_eq]
      by_cases h : j = c2
      · subst h
        rw [if_pos rfl, colCount_cons_eq, colCount_cons_eq]
      · rw [if_neg h, colCount_cons_ne c2 j (m + n) rest (fun hx => h hx.symm),
          colCount_cons_ne c2 j m rest (fun hx => h hx.symm)]
  
    · rw [addColCount_cons_ne c2 c m n rest h2]
      by_cases h : j = c2
      · subst h
        rw [colCount_cons_eq, if_neg h2, colCount_cons_eq]
      · rw [colCount_cons_ne c2 j m _ (fun hx => h hx.symm), ih,
          colCount_cons_ne c2 j m rest (fun hx => h hx.symm)]

theorem colCount_eq_zero_of_not_mem (cs : List (Nat × Nat)) (j : Nat)
    (h : j ∉ colKeys cs) : colCount cs j = 0 := by
  induction cs with
  | nil => rfl
  | cons x rest ih =>
    obtain ⟨c2, m⟩ := x
    have h2 : c2 ≠ j := fun hx => h (by rw [hx]; exact List.mem_cons_self _ _)
    have h3 : j ∉ colKeys rest := fun hx => h (List.mem_cons_of_mem _ hx)
    rw [colCount_cons_ne c2 j m rest h2, ih h3]

theorem colCount_mergeCols (b a : List (Nat × Nat))
    (hb : (colKeys b).Nodup) (j : Nat) :
    colCount (mergeCols a b) j = colCount a j + colCount b j := by
  induction b generalizing a with
  | nil => simp [mergeCols_nil, colCount]
  | cons x b2 ih =>
    obtain ⟨c, n⟩ := x
    have hcb2 : c ∉ colKeys b2 := by
      simp only [colKeys, List.map_cons, List.nodup_cons] at hb
      exact hb.1
    have hb2 : (colKeys b2).Nodup := by
      simp only [colKeys, List.map_cons, List.nodup_cons] at hb
      exact hb.2
    rw [mergeCols_cons, ih (addColCount a c n) hb2, colCount_addColCount a c n j]
    by_cases h : j = c
    · subst h
      rw [if_pos rfl, colCount_eq_zero_of_not_mem b2 j hcb2, colCount_cons_eq]
      omega
    · rw [if_neg h, colCount_cons_ne c j n b2 (fun hx => h hx.symm)]

/-- C8: aggregating the concatenation of two row streams in one pass equals
aggregating each alone and merging the resulting aggregates (merging
LineInfo by concatenating address lists and summing column counts); the
LineInfo merge is associative, and commutative up to the ordering of the
address list (column counts agree at every column). -/
theorem C8_merge_equivalence :
    (∀ (res : StrResolver) (cd : DwPath) (dirs : List Nat) (A B : List Row)
        (aggA aggB : Aggregate),
      aggregateRows res cd dirs A = .ok aggA →
      aggregateRows res cd dirs B = .ok aggB →
      aggregateRows res cd dirs (A ++ B) = .ok (mergeAgg aggA aggB))
    ∧ (∀ x y z : LineInfo,
      mergeLineInfo (mergeLineInfo x y) z = mergeLineInfo x (mergeLineInfo y z))
    ∧ (∀ x y : LineInfo,
      (colKeys x.columns).Nodup → (colKeys y.columns).Nodup →
      (mergeLineInfo x y).addresses.Perm (mergeLineInfo y x).addresses
      ∧ ∀ j, colCount (mergeLineInfo x y).columns j
          = colCount (mergeLineInfo y x).columns j) := by
  refine ⟨?_, mergeLineInfo_assoc, ?_⟩
  · intro res cd dirs A B aggA aggB hA hB
    unfold aggregateRows at hA hB ⊢
    rw [aggRows_append, hA]
    exact aggRows_from_merge res cd dirs B aggA aggB hB
  · intro x y hx hy
    constructor
    · exact List.perm_append_comm
    · intro j
      show colCount (mergeCols x.columns y.columns) j
        = colCount (mergeCols y.columns x.columns) j
      rw [colCount_mergeCols y.columns x.columns hy j,
        colCount_mergeCols x.columns y.columns hx j, Nat.add_comm]

def resC8 : StrResolver := fun _ => .ok ""

def rowsC8A : List Row := [⟨4096, false, none, some 5, .column 3⟩]

def rowsC8B : List Row :=
  [⟨4100, false, none, some 5, .column 3⟩, ⟨4104, true, none, some 9, .leftEdge⟩]

def aggC8A : Aggregate := [([], [(5, ⟨[4096], [(3, 1)]⟩)])]

def aggC8B : Aggregate := [([], [(5, ⟨[4100], [(3, 1)]⟩)])]

def liC8x : LineInfo := ⟨[1, 2], [(3, 1), (0, 1)]⟩

def liC8y : LineInfo := ⟨[7], [(3, 2)]⟩

theorem C8_witness :
    aggregateRows resC8 [] [] rowsC8A = .ok aggC8A
    ∧ aggregateRows resC8 [] [] rowsC8B = .ok aggC8B
    ∧ aggregateRows resC8 [] [] (rowsC8A ++ rowsC8B) = .ok (mergeAgg aggC8A aggC8B)
    ∧ (colKeys liC8x.columns).Nodup
    ∧ (colKeys liC8y.columns).Nodup
    ∧ (mergeLineInfo liC8x liC8y).addresses.Perm
        (mergeLineInfo liC8y liC8x).addresses := by
  refine ⟨by decide, by decide, ?_, by decide, by decide, ?_⟩
  · exact C8_merge_equivalence.1 resC8 [] [] rowsC8A rowsC8B aggC8A aggC8B
      (by decide) (by decide)
  · exact (C8_merge_equivalence.2.2 liC8x liC8y (by decide) (by decide)).1

end SimpleLine
